import Mathlib

/-!
Verification of the refbot script (src/memory_network_q1.py).

The Python code is embedded shallowly:

* strings are Lean `String`s, handled character-by-character through `List Char`;
* functions that can raise (`KeyError`, `ValueError`, `TypeError`, `IndexError`)
  return `Option`, with `none` standing for an uncaught exception;
* NumPy arrays are `List Nat` / `List (List Nat)` rows;
* Python `set` plus `sorted` is modelled by `List.dedup` plus insertion sort
  under the code-point lexicographic order (Python compares strings by
  code point).
-/

namespace RefBot

/-! ### Generic Option-monad helpers

`optMapM f xs` models a Python list comprehension `[f(x) for x in xs]` whose
body may raise: evaluation is left to right and the first exception aborts.
`optFoldl` models a statement loop mutating an accumulator the same way. -/

def optMapM (f : α → Option β) : List α → Option (List β)
  | [] => some []
  | x :: xs =>
    match f x with
    | none => none
    | some y =>
      match optMapM f xs with
      | none => none
      | some ys => some (y :: ys)

def optFoldl (f : σ → α → Option σ) : σ → List α → Option σ
  | s, [] => some s
  | s, x :: xs =>
    match f s x with
    | none => none
    | some s2 => optFoldl f s2 xs

/-! ### Tokenization

`tokenize` embeds the source's

    return [x.strip() for x in re.split('(\W+)?', sent) if x.strip()]

On the Python (≤ 3.6) regex engine this splits the sentence into the maximal
runs of word characters (`\w`) and of non-word characters (`\W`), strips
whitespace from each run and keeps the non-empty results.  `\w` is modelled for
the dataset's ASCII text as alphanumeric-or-underscore; `strip()` removes
leading and trailing whitespace. -/

abbrev Token := String

def pyStrip (s : String) : String :=
  String.mk (((s.data.dropWhile Char.isWhitespace).reverse.dropWhile Char.isWhitespace).reverse)

def isWordChar (c : Char) : Bool := c.isAlphanum || c = '_'

def charRuns : List Char → List (List Char)
  | [] => []
  | c :: cs =>
    match charRuns cs with
    | [] => [[c]]
    | [] :: rs => [c] :: [] :: rs
    | (d :: r) :: rs =>
      if isWordChar c = isWordChar d then (c :: d :: r) :: rs
      else [c] :: (d :: r) :: rs

def tokenize (sent : String) : List Token :=
  ((charRuns sent.data).map (fun r => pyStrip (String.mk r))).filter (fun t => t ≠ "")

/-! ### Parsing the bAbI flat-file format

A `RawLine` is one input line after the source's

    line = line.decode('utf-8').strip()
    nid, line = line.split(' ', 1)
    nid = int(nid)

i.e. the leading line number and the rest of the line; the claims quantify
over inputs in the bAbI flat-file format, where this split always succeeds. -/

structure RawLine where
  nid : Nat
  body : String

def hasTab (s : String) : Bool := s.data.contains '\t'

/-- `line.split('\t')` on the part after the line number. -/
def splitTab (s : String) : List String :=
  (s.data.splitOn '\t').map String.mk

/-- The unpacking `q, a, supporting = line.split('\t')`: a `ValueError`
(`none`) unless there are exactly three fields. -/
def splitTab3 (s : String) : Option (String × String × String) :=
  match splitTab s with
  | [q, a, supp] => some (q, a, supp)
  | _ => none

/-- Python `str.split()` with no argument: split on whitespace runs,
discarding empty pieces. -/
def pySplitWs (s : String) : List String :=
  ((s.data.splitOnP Char.isWhitespace).map String.mk).filter (fun t => t ≠ "")

def digitsToNat : List Char → Option Nat
  | [] => none
  | ds =>
    if ds.all Char.isDigit then
      some (ds.foldl (fun n c => n * 10 + (c.toNat - 48)) 0)
    else none

/-- Python `int(s)` on a decimal literal: optional surrounding whitespace,
optional sign, digits; anything else raises `ValueError`. -/
def pyInt (s : String) : Option Int :=
  match (pyStrip s).data with
  | '-' :: rest => (digitsToNat rest).map (fun n => -(n : Int))
  | '+' :: rest => (digitsToNat rest).map (fun n => (n : Int))
  | rest => (digitsToNat rest).map (fun n => (n : Int))

/-- Python list indexing `l[i]` with an `int` index: negative indices count
from the end, out-of-range raises `IndexError`. -/
def pyIndex (l : List α) (i : Int) : Option α :=
  if 0 ≤ i then l.get? i.toNat
  else if (-i).toNat ≤ l.length then l.get? (l.length - (-i).toNat) else none

/-- A sentence of a story: its token list.  The source also appends the empty
string `''` to the running `story` buffer after each question as a position
marker; both `''` and an empty token list are falsy in Python and are removed
by the `if x` filter, so the marker is modelled as the empty token list. -/
abbrev Sentence := List Token

/-- One parsed (substory, question, answer) triple. -/
abbrev Triple := List Sentence × List Token × String

/-- `if nid == 1: story = []`. -/
def resetStory (nid : Nat) (story : List Sentence) : List Sentence :=
  if nid = 1 then [] else story

/-- The `only_supporting` branch:
`supporting = map(int, supporting.split()); substory = [story[i - 1] for i in supporting]`. -/
def supportingSub (story : List Sentence) (supp : String) :
    Option (List Sentence) :=
  match optMapM pyInt (pySplitWs supp) with
  | none => none
  | some idxs => optMapM (fun i => pyIndex story (i - 1)) idxs

/-- The body of the `for line in lines` loop of `parse_stories`: state is
(accumulated `data`, current `story` buffer). -/
def parseStep (onlySupporting : Bool) (st : List Triple × List Sentence)
    (l : RawLine) : Option (List Triple × List Sentence) :=
  if hasTab l.body then
    match splitTab3 l.body with
    | none => none
    | some (qs, a, supp) =>
      match (if onlySupporting then supportingSub (resetStory l.nid st.2) supp
             else some ((resetStory l.nid st.2).filter (fun x => !x.isEmpty))) with
      | none => none
      | some substory =>
        some (st.1 ++ [(substory, tokenize qs, a)], resetStory l.nid st.2 ++ [[]])
  else
    some (st.1, resetStory l.nid st.2 ++ [tokenize l.body])

/-- `parse_stories(lines, only_supporting)`. -/
def parseStories (lines : List RawLine) (onlySupporting : Bool) :
    Option (List Triple) :=
  (optFoldl (parseStep onlySupporting) ([], []) lines).map Prod.fst

/-! ### `get_stories` -/

/-- `flatten = lambda data: reduce(lambda x, y: x + y, data)`: `reduce`
without an initial value raises `TypeError` on an empty sequence. -/
def flatten (ss : List Sentence) : Option (List Token) :=
  match ss with
  | [] => none
  | x :: xs => some (xs.foldl (fun a b => a ++ b) x)

/-- A flattened (story, question, answer) triple. -/
abbrev FlatTriple := List Token × List Token × String

/-- The filter `if not max_length or len(flatten(story)) < max_length`:
`max_length` of `None` (here `none`) or `0` is falsy, short-circuiting the
`or`, so every story is kept without evaluating `flatten`. -/
def keepTriple (maxLength : Option Nat) (t : Triple) : Option Bool :=
  match maxLength with
  | none => some true
  | some L =>
    if L = 0 then some true
    else (flatten t.1).map (fun f => decide (f.length < L))

/-- The comprehension
`[(flatten(story), q, answer) for story, q, answer in data if ...]`. -/
def gsList (maxLength : Option Nat) : List Triple → Option (List FlatTriple)
  | [] => some []
  | t :: rest =>
    match keepTriple maxLength t with
    | none => none
    | some keep =>
      if keep then
        match flatten t.1 with
        | none => none
        | some f =>
          match gsList maxLength rest with
          | none => none
          | some tail => some ((f, t.2.1, t.2.2) :: tail)
      else gsList maxLength rest

/-- `get_stories(f, only_supporting, max_length)` after the `readlines`. -/
def getStories (lines : List RawLine) (onlySupporting : Bool)
    (maxLength : Option Nat) : Option (List FlatTriple) :=
  match parseStories lines onlySupporting with
  | none => none
  | some data => gsList maxLength data

/-! ### Vocabulary and `word_idx`

    vocab = set()
    for story, q, answer in train_stories + test_stories:
        vocab |= set(story + q + [answer])
    vocab = sorted(vocab)
    word_idx = dict((c, i + 1) for i, c in enumerate(vocab))

Python sorts strings by code point; `lexLe` is that order on character
lists.  The set union is modelled by concatenating the token lists and
deduplicating (only membership matters before sorting). -/

def lexLe : List Char → List Char → Bool
  | [], _ => true
  | _ :: _, [] => false
  | a :: as, b :: bs =>
    if a.toNat < b.toNat then true
    else if b.toNat < a.toNat then false
    else lexLe as bs

def strLe (a b : String) : Prop := lexLe a.data b.data = true

instance : DecidableRel strLe := fun a b => by unfold strLe; infer_instance

/-- The tokens contributed by one flattened triple: `story + q + [answer]`. -/
def tripleTokens (t : FlatTriple) : List Token := t.1 ++ t.2.1 ++ [t.2.2]

/-- `vocab = sorted(set(...))` over a dataset (for the script, the dataset is
`train_stories + test_stories`). -/
def vocabList (data : List FlatTriple) : List Token :=
  List.insertionSort strLe ((data.map tripleTokens).flatten.dedup)

/-- The pairs `(c, i + 1) for i, c in enumerate(vocab)`, starting the
enumeration at `k`. -/
def wordIdxItemsFrom (k : Nat) : List Token → List (Token × Nat)
  | [] => []
  | w :: ws => (w, k + 1) :: wordIdxItemsFrom (k + 1) ws

def wordIdxItems (vocab : List Token) : List (Token × Nat) :=
  wordIdxItemsFrom 0 vocab

/-- `dict(items)[w]`: the last binding of a key wins; a missing key raises
`KeyError` (`none`). -/
def dictLookup (items : List (Token × Nat)) (w : Token) : Option Nat :=
  items.foldl (fun acc p => if p.1 = w then some p.2 else acc) none

/-- `word_idx[w]` for the dictionary built from `vocab`. -/
def wordIdx (vocab : List Token) (w : Token) : Option Nat :=
  dictLookup (wordIdxItems vocab) w

/-! ### Vectorization -/

/-- One row of `keras.preprocessing.sequence.pad_sequences` with the default
settings used here: pad on the left with `0` up to `maxlen`, truncate on the
left down to `maxlen`. -/
def padSeq (maxlen : Nat) (xs : List Nat) : List Nat :=
  if maxlen ≤ xs.length then xs.drop (xs.length - maxlen)
  else List.replicate (maxlen - xs.length) 0 ++ xs

/-- `y = np.zeros(n); y[i] = 1`.  (`List.set` ignores an out-of-range index
where NumPy would raise, but every index written by the script is
`word_idx[answer] ≤ len(vocab) < n`.) -/
def oneHot (n : Nat) (i : Nat) : List Nat := (List.replicate n 0).set i 1

/-- The loop body of `vectorize_stories` for one (story, query, answer)
triple, with `len(word_idx) = vocab.length` (the keys are distinct). -/
def vectorizeTriple (vocab : List Token) (t : FlatTriple) :
    Option (List Nat × List Nat × List Nat) :=
  match optMapM (wordIdx vocab) t.1 with
  | none => none
  | some x =>
    match optMapM (wordIdx vocab) t.2.1 with
    | none => none
    | some xq =>
      match wordIdx vocab t.2.2 with
      | none => none
      | some yi => some (x, xq, oneHot (vocab.length + 1) yi)

/-- `vectorize_stories(data, word_idx, story_maxlen, query_maxlen)`. -/
def vectorizeStories (vocab : List Token) (storyMaxlen queryMaxlen : Nat)
    (data : List FlatTriple) :
    Option (List (List Nat) × List (List Nat) × List (List Nat)) :=
  match optMapM (vectorizeTriple vocab) data with
  | none => none
  | some rows =>
    some (rows.map (fun r => padSeq storyMaxlen r.1),
          rows.map (fun r => padSeq queryMaxlen r.2.1),
          rows.map (fun r => r.2.2))

/-- `vectorize_query(data, word_idx, query_maxlen)`: tokenize the typed
question, look every token up in `word_idx`, pad; the result is a
`1 × query_maxlen` array, modelled by its single row. -/
def vectorizeQuery (vocab : List Token) (queryMaxlen : Nat) (s : String) :
    Option (List Nat) :=
  match optMapM (wordIdx vocab) (tokenize s) with
  | none => none
  | some xq => some (padSeq queryMaxlen xq)

/-! ### The demo loop and `get_answer` -/

/-- `np.argmax` over a row: index of the first maximal entry; raises on an
empty row.  The floating-point scores are modelled by an arbitrary linearly
ordered type of scores. -/
def argmaxAux [LinearOrder α] : List α → Nat → Nat → α → Nat
  | [], _, bi, _ => bi
  | v :: vs, i, bi, bv =>
    if bv < v then argmaxAux vs (i + 1) i v else argmaxAux vs (i + 1) bi bv

def argmax [LinearOrder α] : List α → Option Nat
  | [] => none
  | v :: vs => some (argmaxAux vs 1 0 v)

/-- `get_answer(input_story, q, model)` as a function of the model's
prediction row `pred`: take the argmax index, then scan `word_idx.items()`
(insertion order) keeping the last key whose value equals it, defaulting to
`"answer not found"`; return that with `pred[argmax]`. -/
def getAnswer [LinearOrder α] (vocab : List Token) (pred : List α) :
    Option (String × α) :=
  match argmax pred with
  | none => none
  | some m =>
    let k := (wordIdxItems vocab).foldl
      (fun acc p => if p.2 = m then p.1 else acc) "answer not found"
    match pred.get? m with
    | none => none
    | some conf => some (k, conf)

/-- The (story row, query row) pair `run_demo` passes to the model for one
question: `input_story = np.reshape(inputs_test[n], (1, story_maxlen))` with
`n = 10`, and the vectorized typed question.  The reshape of a
`story_maxlen`-row to `1 × story_maxlen` is the identity on the row. -/
structure ModelCall where
  story : List Nat
  query : List Nat
deriving DecidableEq

def demoCall (inputsTest : List (List Nat)) (vocab : List Token)
    (queryMaxlen : Nat) (qu : String) : Option ModelCall :=
  match vectorizeQuery vocab queryMaxlen qu with
  | none => none
  | some q =>
    match inputsTest.get? 10 with
    | none => none
    | some st => some ⟨st, q⟩

/-- The `while True` loop of `run_demo`, driven by the sequence of strings
the user types: stop at `'q'`, otherwise make the model call; an uncaught
exception (`none`) ends the run. -/
def demoRun (inputsTest : List (List Nat)) (vocab : List Token)
    (queryMaxlen : Nat) : List String → List ModelCall
  | [] => []
  | qu :: rest =>
    if qu = "q" then []
    else
      match demoCall inputsTest vocab queryMaxlen qu with
      | none => []
      | some c => c :: demoRun inputsTest vocab queryMaxlen rest

/-! ### Top-level script structure

The module-level statements of the script, in order, and which of them are
wrapped in a `try`/`except`.  Exactly two are: the dataset download (whose
handler prints a message and then re-raises) and the saved-model load (whose
handler trains and saves a fresh model instead). -/

inductive ScriptOp where
  | downloadDataset
  | openTar
  | extractTrainStories
  | extractTestStories
  | buildVocab
  | vectorizeTrain
  | vectorizeTest
  | buildModel
  | loadSavedModel
  | trainAndSaveModel
  | runDemoLoop
deriving DecidableEq

/-- Whether the operation sits inside a `try` block, so that an exception it
raises is caught by an `except` clause. -/
def opCaught : ScriptOp → Bool
  | .downloadDataset => true
  | .loadSavedModel => true
  | _ => false

/-- Whether the `except` clause swallows the exception (`true`) or re-raises
it (`false`); meaningful for the caught operations. -/
def handlerSwallows : ScriptOp → Bool
  | .loadSavedModel => true
  | _ => false

/-! ### Spec-side parser for the refinement claim about `parse_stories`

Follows the words of the claim: one triple per tab line in encounter order;
the substory is the ordered list of non-empty tokenized sentences read since
the most recent line whose leading number is 1; the question is the tokenized
question field; the answer is the raw answer field.  The state carries the
tokenizations of the sentence lines of the current block, with no marker
entries. -/

def specStep (st : List Triple × List Sentence) (l : RawLine) :
    Option (List Triple × List Sentence) :=
  if hasTab l.body then
    match splitTab3 l.body with
    | none => none
    | some (qs, a, _) =>
      some (st.1 ++ [((resetStory l.nid st.2).filter (fun x => !x.isEmpty),
                      tokenize qs, a)],
            resetStory l.nid st.2)
  else
    some (st.1, resetStory l.nid st.2 ++ [tokenize l.body])

def specParse (lines : List RawLine) : Option (List Triple) :=
  (optFoldl specStep ([], []) lines).map Prod.fst

/-! ### Concrete data for witnesses

A miniature input in the bAbI flat-file format, and small vocabularies and
datasets on which the embedded functions are evaluated. -/

def exStory1 : Sentence := ["Mary", "moved", "to", "the", "bathroom", "."]

def exStory2 : Sentence := ["John", "went", "to", "the", "hallway", "."]

def exQuery : List Token := ["Where", "is", "Mary", "?"]

def exTriple : Triple := ([exStory1, exStory2], exQuery, "bathroom")

def exLines : List RawLine :=
  [⟨1, "Mary moved to the bathroom ."⟩,
   ⟨2, "John went to the hallway ."⟩,
   ⟨3, "Where is Mary ?\tbathroom\t1"⟩]

/-- An input whose only line is a question line opening its block. -/
def exLines9 : List RawLine := [⟨1, "Where is Mary ?\tbathroom\t1"⟩]

def exTriple9 : Triple := ([], exQuery, "bathroom")

def exInputs : List (List Nat) := [[], [], [], [], [], [], [], [], [], [], [9, 9]]

def exFlatData : List FlatTriple := [(["b", "a"], ["c"], "a")]

/-! ## Lemmas and claim theorems -/

theorem lexLe_total (a b : List Char) : lexLe a b = true ∨ lexLe b a = true := by
  induction a generalizing b with
  | nil => left; rfl
  | cons x xs ih =>
    cases b with
    | nil => right; rfl
    | cons y ys =>
      rcases Nat.lt_trichotomy x.toNat y.toNat with h | h | h
      · left; simp [lexLe, h]
      · rcases ih ys with h2 | h2
        · left; simp [lexLe, h, h2]
        · right; simp [lexLe, h, h2]
      · right; simp [lexLe, h]

theorem lexLe_trans (a b c : List Char) (hab : lexLe a b = true)
    (hbc : lexLe b c = true) : lexLe a c = true := by
  induction a generalizing b c with
  | nil => rfl
  | cons x xs ih =>
    cases b with
    | nil => simp [lexLe] at hab
    | cons y ys =>
      cases c with
      | nil => simp [lexLe] at hbc
      | cons z zs =>
        simp only [lexLe] at hab hbc ⊢
        rcases Nat.lt_trichotomy x.toNat y.toNat with hxy | hxy | hxy <;>
          rcases Nat.lt_trichotomy y.toNat z.toNat with hyz | hyz | hyz
        · simp [Nat.lt_trans hxy hyz]
        · simp [hyz ▸ hxy]
        · simp [Nat.lt_irrefl, Nat.lt_asymm hyz, hyz] at hbc
        · simp [hxy ▸ hyz]
        · have h1 : ¬ x.toNat < y.toNat := by omega
          have h2 : ¬ y.toNat < z.toNat := by omega
          have h3 : ¬ x.toNat < z.toNat := by omega
          have h4 : ¬ z.toNat < x.toNat := by omega
          simp [h1, Nat.lt_irrefl, hxy ▸ h1] at hab
          simp [h2, Nat.lt_irrefl, hyz ▸ h2] at hbc
          simp [h3, h4]
          exact ih ys zs hab.2 hbc.2
        · simp [Nat.lt_irrefl, Nat.lt_asymm hyz, hyz] at hbc
        · simp [Nat.lt_irrefl, Nat.lt_asymm hxy, hxy] at hab
        · simp [Nat.lt_irrefl, Nat.lt_asymm hxy, hxy] at hab
        · simp [Nat.lt_irrefl, Nat.lt_asymm hxy, hxy] at hab

instance : IsTotal String strLe := ⟨fun a b => lexLe_total a.data b.data⟩

instance : IsTrans String strLe := ⟨fun a b c => lexLe_trans a.data b.data c.data⟩

/-! Dictionary lemmas: `dictLookup` and the enumerated items. -/

theorem wordIdxItemsFrom_map_fst (k : Nat) (v : List Token) :
    (wordIdxItemsFrom k v).map Prod.fst = v := by
  induction v generalizing k with
  | nil => rfl
  | cons w ws ih => simp [wordIdxItemsFrom, ih]

theorem mem_wordIdxItemsFrom_of_get? {v : List Token} {i : Nat} {w : Token}
    (k : Nat) (h : v.get? i = some w) : (w, k + i + 1) ∈ wordIdxItemsFrom k v := by
  induction v generalizing k i with
  | nil => simp at h
  | cons x xs ih =>
    cases i with
    | zero =>
      injection h with h
      subst h
      simp [wordIdxItemsFrom]
    | succ j =>
      have hj : xs.get? j = some w := h
      have := ih (k + 1) hj
      simp only [wordIdxItemsFrom, List.mem_cons]
      right
      have e : k + 1 + j + 1 = k + (j + 1) + 1 := by omega
      exact e ▸ this

theorem of_mem_wordIdxItemsFrom {v : List Token} {k : Nat} {p : Token × Nat}
    (h : p ∈ wordIdxItemsFrom k v) :
    ∃ i, v.get? i = some p.1 ∧ p.2 = k + i + 1 := by
  induction v generalizing k with
  | nil => simp [wordIdxItemsFrom] at h
  | cons x xs ih =>
    simp [wordIdxItemsFrom] at h
    rcases h with h | h
    · exact ⟨0, by simp [h]⟩
    · obtain ⟨i, hi, hv⟩ := ih h
      exact ⟨i + 1, by simpa using hi, by omega⟩

theorem dict_foldl_of_not_mem {w : Token} {items : List (Token × Nat)}
    (acc : Option Nat) (h : ∀ p ∈ items, p.1 ≠ w) :
    items.foldl (fun acc p => if p.1 = w then some p.2 else acc) acc = acc := by
  induction items generalizing acc with
  | nil => rfl
  | cons x xs ih =>
    have hx : x.1 ≠ w := h x (by simp)
    simp only [List.foldl_cons, if_neg hx]
    exact ih acc (fun p hp => h p (by simp [hp]))

theorem dictLookup_of_mem {w : Token} {v : Nat} {items : List (Token × Nat)}
    (hnd : (items.map Prod.fst).Nodup) (hmem : (w, v) ∈ items) :
    dictLookup items w = some v := by
  induction items with
  | nil => simp at hmem
  | cons x xs ih =>
    simp only [List.map_cons, List.nodup_cons] at hnd
    rcases List.mem_cons.mp hmem with h | h
    · subst h
      simp only [dictLookup, List.foldl_cons, if_pos rfl]
      refine dict_foldl_of_not_mem (some v) (fun p hp hpw => ?_)
      have hmap : p.1 ∈ xs.map Prod.fst := List.mem_map_of_mem Prod.fst hp
      exact hnd.1 (hpw ▸ hmap)
    · have hwmem : w ∈ xs.map Prod.fst := by
        have hmap : (w, v).1 ∈ xs.map Prod.fst := List.mem_map_of_mem Prod.fst h
        exact hmap
      have hxw : x.1 ≠ w := fun hx => hnd.1 (hx ▸ hwmem)
      simp only [dictLookup, List.foldl_cons, if_neg hxw]
      exact ih hnd.2 h

theorem dict_foldl_some {w : Token} {v : Nat} {items : List (Token × Nat)} :
    ∀ acc, items.foldl (fun acc p => if p.1 = w then some p.2 else acc) acc = some v →
      (∃ p ∈ items, p.1 = w ∧ p.2 = v) ∨ acc = some v := by
  induction items with
  | nil => intro acc h; right; exact h
  | cons x xs ih =>
    intro acc h
    simp only [List.foldl_cons] at h
    by_cases hx : x.1 = w
    · rw [if_pos hx] at h
      rcases ih (some x.2) h with ⟨p, hp, hpw, hpv⟩ | h2
      · exact Or.inl ⟨p, by simp [hp], hpw, hpv⟩
      · exact Or.inl ⟨x, by simp, hx, by injection h2⟩
    · rw [if_neg hx] at h
      rcases ih acc h with ⟨p, hp, hpw, hpv⟩ | h2
      · exact Or.inl ⟨p, by simp [hp], hpw, hpv⟩
      · exact Or.inr h2

theorem dict_foldl_isSome {w : Token} {items : List (Token × Nat)} :
    ∀ acc : Option Nat, acc.isSome →
      (items.foldl (fun acc p => if p.1 = w then some p.2 else acc) acc).isSome := by
  induction items with
  | nil => intro acc h; exact h
  | cons x xs ih =>
    intro acc h
    simp only [List.foldl_cons]
    by_cases hx : x.1 = w
    · rw [if_pos hx]; exact ih (some x.2) rfl
    · rw [if_neg hx]; exact ih acc h

theorem dictLookup_isSome_of_mem {w : Token} {items : List (Token × Nat)}
    (h : ∃ p ∈ items, p.1 = w) : (dictLookup items w).isSome := by
  induction items with
  | nil => simp at h
  | cons x xs ih =>
    by_cases hx : x.1 = w
    · simp only [dictLookup, List.foldl_cons, if_pos hx]
      exact dict_foldl_isSome (some x.2) rfl
    · simp only [dictLookup, List.foldl_cons, if_neg hx]
      obtain ⟨p, hp, hpw⟩ := h
      rcases List.mem_cons.mp hp with rfl | hp2
      · exact absurd hpw hx
      · exact ih ⟨p, hp2, hpw⟩

/-- `wordIdx vocab w = some k` comes from the binding of the token at
position `k - 1`, so `1 ≤ k ≤ vocab.length`. -/
theorem wordIdx_some_bounds {vocab : List Token} {w : Token} {k : Nat}
    (h : wordIdx vocab w = some k) :
    ∃ i, vocab.get? i = some w ∧ k = i + 1 := by
  rcases dict_foldl_some none h with ⟨p, hp, hpw, hpv⟩ | h2
  · obtain ⟨i, hi, hv⟩ := of_mem_wordIdxItemsFrom hp
    exact ⟨i, hpw ▸ hi, by omega⟩
  · simp at h2

/-- Claim C1: the vocabulary `vocab` is the sorted set of all tokens seen
across the dataset's stories, questions and answers, and `word_idx` assigns
consecutive indices starting at 1 in sorted order; no token gets index 0 and
every occurring token is a key. -/
theorem claim_C1 (data : List FlatTriple) :
    List.Sorted strLe (vocabList data) ∧
    (vocabList data).Nodup ∧
    (∀ w, w ∈ vocabList data ↔ w ∈ (data.map tripleTokens).flatten) ∧
    (∀ i w, (vocabList data).get? i = some w →
      wordIdx (vocabList data) w = some (i + 1)) ∧
    (∀ w k, wordIdx (vocabList data) w = some k → 1 ≤ k) ∧
    (∀ w, w ∈ (data.map tripleTokens).flatten → (wordIdx (vocabList data) w).isSome) := by
  have hnd : (vocabList data).Nodup := by
    rw [vocabList]
    exact ((List.perm_insertionSort strLe
      ((data.map tripleTokens).flatten.dedup)).nodup_iff).mpr
      (List.nodup_dedup _)
  refine ⟨List.sorted_insertionSort strLe _, hnd, ?_, ?_, ?_, ?_⟩
  · intro w
    rw [vocabList, List.mem_insertionSort, List.mem_dedup]
  · intro i w hw
    have hkeys : ((wordIdxItems (vocabList data)).map Prod.fst).Nodup := by
      rw [wordIdxItems, wordIdxItemsFrom_map_fst]; exact hnd
    have hmem := mem_wordIdxItemsFrom_of_get? 0 hw
    simpa [wordIdx] using dictLookup_of_mem hkeys (by simpa using hmem)
  · intro w k h
    obtain ⟨i, _, hk⟩ := wordIdx_some_bounds h
    omega
  · intro w hw
    have hv : w ∈ vocabList data := by
      rw [vocabList, List.mem_insertionSort, List.mem_dedup]; exact hw
    obtain ⟨i, hi⟩ := List.get?_of_mem hv
    exact dictLookup_isSome_of_mem ⟨(w, 0 + i + 1), mem_wordIdxItemsFrom_of_get? 0 hi, rfl⟩

/-- Witness for C1 on a concrete dataset: the token `"b"` sits at position 1
of the sorted vocabulary and gets index 2, and the occurring token `"c"` is a
key of `word_idx`. -/
theorem claim_C1_witness :
    (vocabList exFlatData).get? 1 = some "b" ∧
    wordIdx (vocabList exFlatData) "b" = some 2 ∧
    "c" ∈ (exFlatData.map tripleTokens).flatten ∧
    (wordIdx (vocabList exFlatData) "c").isSome := by
  refine ⟨by decide, ?_, by decide, ?_⟩
  · exact (claim_C1 exFlatData).2.2.2.1 1 "b" (by decide)
  · exact (claim_C1 exFlatData).2.2.2.2.2 "c" (by decide)

/-- Claim C2 counterexample: the saved-model load at lines 270–278 is a
second operation wrapped in a `try`/`except`, so the download is not the only
one. -/
theorem claim_C2_counterexample :
    opCaught ScriptOp.loadSavedModel = true ∧
    ScriptOp.loadSavedModel ≠ ScriptOp.downloadDataset :=
  ⟨rfl, by decide⟩

/-- Claim C2 (amended): exactly two operations have their exceptions caught:
the dataset download, whose handler prints and re-raises, and the saved-model
load, whose handler swallows the exception and trains a model instead; every
other exception propagates uncaught. -/
theorem claim_C2 :
    (∀ op, opCaught op = true ↔
      (op = ScriptOp.downloadDataset ∨ op = ScriptOp.loadSavedModel)) ∧
    handlerSwallows ScriptOp.downloadDataset = false ∧
    handlerSwallows ScriptOp.loadSavedModel = true :=
  ⟨fun op => by cases op <;> simp [opCaught], rfl, rfl⟩

/-- Witness for the amended C2 at the two concrete operations. -/
theorem claim_C2_witness :
    opCaught ScriptOp.downloadDataset = true ∧
    handlerSwallows ScriptOp.loadSavedModel = true :=
  ⟨(claim_C2.1 ScriptOp.downloadDataset).mpr (Or.inl rfl), claim_C2.2.2⟩

/-! Equivalence of `parse_stories` (with `only_supporting=False`) with the
spec-side parser, for claim C3. -/

theorem filter_resetStory (nid : Nat) {story sents : List Sentence}
    (p : Sentence → Bool) (h : story.filter p = sents.filter p) :
    (resetStory nid story).filter p = (resetStory nid sents).filter p := by
  unfold resetStory
  by_cases hn : nid = 1 <;> simp [hn, h]

theorem parseStep_spec_step (ts : List Triple) (story sents : List Sentence)
    (l : RawLine)
    (h : story.filter (fun x => !x.isEmpty) = sents.filter (fun x => !x.isEmpty)) :
    (parseStep false (ts, story) l = none ∧ specStep (ts, sents) l = none) ∨
    (∃ ts2 story2 sents2,
      parseStep false (ts, story) l = some (ts2, story2) ∧
      specStep (ts, sents) l = some (ts2, sents2) ∧
      story2.filter (fun x => !x.isEmpty) = sents2.filter (fun x => !x.isEmpty)) := by
  have hfil := filter_resetStory l.nid (fun x => !x.isEmpty) h
  by_cases ht : hasTab l.body
  · cases hsp : splitTab3 l.body with
    | none =>
      left
      constructor <;> simp [parseStep, specStep, ht, hsp]
    | some trip =>
      obtain ⟨qs, a, supp⟩ := trip
      right
      refine ⟨ts ++ [((resetStory l.nid story).filter (fun x => !x.isEmpty),
                      tokenize qs, a)],
              resetStory l.nid story ++ [[]],
              resetStory l.nid sents, ?_, ?_, ?_⟩
      · simp [parseStep, ht, hsp]
      · simp [specStep, ht, hsp, hfil]
      · rw [List.filter_append]
        simpa using hfil
  · right
    refine ⟨ts, resetStory l.nid story ++ [tokenize l.body],
            resetStory l.nid sents ++ [tokenize l.body], ?_, ?_, ?_⟩
    · simp [parseStep, ht]
    · simp [specStep, ht]
    · rw [List.filter_append, List.filter_append, hfil]

theorem parse_spec_fold (lines : List RawLine) :
    ∀ (ts : List Triple) (story sents : List Sentence),
      story.filter (fun x => !x.isEmpty) = sents.filter (fun x => !x.isEmpty) →
      (optFoldl (parseStep false) (ts, story) lines).map Prod.fst
        = (optFoldl specStep (ts, sents) lines).map Prod.fst := by
  induction lines with
  | nil => intro ts story sents _; rfl
  | cons l rest ih =>
    intro ts story sents h
    rcases parseStep_spec_step ts story sents l h with ⟨h1, h2⟩ | ⟨ts2, st2, se2, h1, h2, h3⟩
    · simp [optFoldl, h1, h2]
    · simp only [optFoldl, h1, h2]
      exact ih ts2 st2 se2 h3

theorem parseStep_fst_length {ts : List Triple} {story : List Sentence}
    {l : RawLine} {s2 : List Triple × List Sentence}
    (h : parseStep false (ts, story) l = some s2) :
    s2.1.length = ts.length + (if hasTab l.body then 1 else 0) := by
  by_cases ht : hasTab l.body
  · cases hsp : splitTab3 l.body with
    | none => simp [parseStep, ht, hsp] at h
    | some trip =>
      obtain ⟨qs, a, supp⟩ := trip
      simp only [parseStep, ht, if_true, hsp, Bool.false_eq_true, if_false,
        Option.some_inj] at h
      subst h
      simp [ht]
  · simp only [parseStep, ht, Bool.false_eq_true, if_false, Option.some_inj] at h
    subst h
    simp [ht]

theorem parse_len_fold (lines : List RawLine) :
    ∀ (ts : List Triple) (story : List Sentence) (r : List Triple × List Sentence),
      optFoldl (parseStep false) (ts, story) lines = some r →
      r.1.length = ts.length + lines.countP (fun l => hasTab l.body) := by
  induction lines with
  | nil =>
    intro ts story r h
    injection h with h
    subst h
    simp
  | cons l rest ih =>
    intro ts story r h
    simp only [optFoldl] at h
    cases hp : parseStep false (ts, story) l with
    | none => rw [hp] at h; exact absurd h (by simp)
    | some s2 =>
      rw [hp] at h
      have hlen := ih s2.1 s2.2 r (by simpa using h)
      have hstep := parseStep_fst_length hp
      rw [List.countP_cons]
      by_cases ht : hasTab l.body <;> simp [ht] at hstep ⊢ <;> omega

/-- Claim C3: with `only_supporting` false, `parse_stories` returns one
triple per tab line in encounter order, whose substory is the ordered list of
non-empty tokenized sentences read since the most recent line numbered 1,
whose question is the tokenized question field and whose answer is the raw
answer field — it coincides with the spec-side parser `specParse`, and
produces exactly one triple per tab line. -/
theorem claim_C3 (lines : List RawLine) :
    parseStories lines false = specParse lines ∧
    ∀ ds, parseStories lines false = some ds →
      ds.length = lines.countP (fun l => hasTab l.body) := by
  constructor
  · exact parse_spec_fold lines [] [] [] rfl
  · intro ds h
    rw [parseStories] at h
    cases hr : optFoldl (parseStep false) ([], []) lines with
    | none => rw [hr] at h; simp at h
    | some r =>
      rw [hr] at h
      simp only [Option.map_some', Option.some_inj] at h
      have := parse_len_fold lines [] [] r hr
      simpa [h] using this

/-- Witness for C3 on the miniature input: three lines, one of them a tab
line, parse to the single expected triple. -/
theorem claim_C3_witness :
    parseStories exLines false = some [exTriple] ∧
    [exTriple].length = exLines.countP (fun l => hasTab l.body) :=
  ⟨by decide, (claim_C3 exLines).2 [exTriple] (by decide)⟩

/-! `flatten` and the `get_stories` comprehension. -/

theorem foldl_append_eq_flatten (x : List Token) (xs : List (List Token)) :
    xs.foldl (fun a b => a ++ b) x = x ++ xs.flatten := by
  induction xs generalizing x with
  | nil => simp
  | cons y ys ih => simp [ih, List.append_assoc]

theorem flatten_eq {ss : List Sentence} (h : ss ≠ []) :
    flatten ss = some ss.flatten := by
  cases ss with
  | nil => exact absurd rfl h
  | cons x xs => simp [flatten, foldl_append_eq_flatten]

theorem gsList_none_maxLength {ds : List Triple} (h : ∀ t ∈ ds, t.1 ≠ []) :
    gsList none ds = some (ds.map (fun t => (t.1.flatten, t.2.1, t.2.2))) := by
  induction ds with
  | nil => rfl
  | cons t rest ih =>
    have ht := flatten_eq (h t (by simp))
    have hrest := ih (fun t2 ht2 => h t2 (by simp [ht2]))
    simp [gsList, keepTriple, ht, hrest]

theorem gsList_some_maxLength {ds : List Triple} {L : Nat} (hL : L ≠ 0)
    (h : ∀ t ∈ ds, t.1 ≠ []) :
    gsList (some L) ds =
      some ((ds.filter (fun t => decide (t.1.flatten.length < L))).map
        (fun t => (t.1.flatten, t.2.1, t.2.2))) := by
  induction ds with
  | nil => rfl
  | cons t rest ih =>
    have ht := flatten_eq (h t (by simp))
    have hrest := ih (fun t2 ht2 => h t2 (by simp [ht2]))
    by_cases hlt : t.1.flatten.length < L
    · simp [gsList, keepTriple, hL, ht, hlt, hrest, List.filter_cons,
        -List.length_flatten]
    · simp [gsList, keepTriple, hL, ht, hlt, hrest, List.filter_cons,
        -List.length_flatten]

theorem gsList_empty_story {ds : List Triple} (ml : Option Nat)
    (h : ∃ t ∈ ds, t.1 = []) : gsList ml ds = none := by
  induction ds with
  | nil => simp at h
  | cons t rest ih =>
    rcases h with ⟨t2, ht2, he⟩
    rcases List.mem_cons.mp ht2 with rfl | hmem
    · cases ml with
      | none => simp [gsList, keepTriple, he, flatten]
      | some L =>
        by_cases hL : L = 0
        · simp [gsList, keepTriple, hL, he, flatten]
        · simp [gsList, keepTriple, hL, he, flatten]
    · have hrest := ih ⟨t2, hmem, he⟩
      cases hk : keepTriple ml t with
      | none => simp [gsList, hk]
      | some keep =>
        cases keep
        · simp [gsList, hk, hrest]
        · cases hf : flatten t.1 with
          | none => simp [gsList, hk, hf]
          | some f => simp [gsList, hk, hf, hrest]

/-- Claim C4: on parsed stories whose substories are all non-empty,
`get_stories` (with no length bound) flattens each substory to the
concatenation of its sentences in order and leaves question and answer
unchanged. -/
theorem claim_C4 (lines : List RawLine) (ds : List Triple)
    (h1 : parseStories lines false = some ds)
    (h2 : ∀ t ∈ ds, t.1 ≠ []) :
    getStories lines false none =
      some (ds.map (fun t => (t.1.flatten, t.2.1, t.2.2))) := by
  simp only [getStories, h1]
  exact gsList_none_maxLength h2

/-- Witness for C4 on the miniature input. -/
theorem claim_C4_witness :
    parseStories exLines false = some [exTriple] ∧
    (∀ t ∈ [exTriple], t.1 ≠ []) ∧
    getStories exLines false none =
      some ([exTriple].map (fun t => (t.1.flatten, t.2.1, t.2.2))) :=
  ⟨by decide, by decide, claim_C4 exLines [exTriple] (by decide) (by decide)⟩

/-- Claim C8 counterexample: with `max_length = 0` supplied, `0` is falsy so
`not max_length` keeps every story; the 12-token story is returned although
`12 < 0` fails, contradicting the claim for the value `L = 0`. -/
theorem claim_C8_counterexample :
    getStories exLines false (some 0) =
      some [(exStory1 ++ exStory2, exQuery, "bathroom")] ∧
    ¬ (exStory1 ++ exStory2).length < 0 :=
  ⟨by decide, by decide⟩

/-- Claim C8 (amended): for every non-zero `max_length` value `L`, the
returned list contains exactly those parsed triples whose flattened story has
strictly fewer than `L` tokens (in particular a story of exactly `L` tokens
is discarded); for `L = 0`, which is falsy in Python, no filtering happens at
all. -/
theorem claim_C8 (lines : List RawLine) (ds : List Triple) (L : Nat)
    (hL : L ≠ 0)
    (h1 : parseStories lines false = some ds)
    (h2 : ∀ t ∈ ds, t.1 ≠ []) :
    getStories lines false (some L) =
      some ((ds.filter (fun t => decide (t.1.flatten.length < L))).map
        (fun t => (t.1.flatten, t.2.1, t.2.2))) := by
  simp only [getStories, h1]
  exact gsList_some_maxLength hL h2

/-- Witness for the amended C8: with `L = 5` the 12-token story is filtered
out. -/
theorem claim_C8_witness :
    (5 : Nat) ≠ 0 ∧
    parseStories exLines false = some [exTriple] ∧
    (∀ t ∈ [exTriple], t.1 ≠ []) ∧
    getStories exLines false (some 5) =
      some (([exTriple].filter (fun t => decide (t.1.flatten.length < 5))).map
        (fun t => (t.1.flatten, t.2.1, t.2.2))) :=
  ⟨by decide, by decide, by decide,
   claim_C8 exLines [exTriple] 5 (by decide) (by decide) (by decide)⟩

/-- Claim C9: if some parsed triple has an empty substory (as happens when a
tab line is the first line of its block), the flattening step (`reduce` over
an empty list) raises instead of returning, for every `max_length`. -/
theorem claim_C9 (lines : List RawLine) (ds : List Triple) (ml : Option Nat)
    (h1 : parseStories lines false = some ds)
    (h2 : ∃ t ∈ ds, t.1 = []) :
    getStories lines false ml = none := by
  simp only [getStories, h1]
  exact gsList_empty_story ml h2

/-- Witness for C9: an input whose single line is a question line numbered 1,
so its substory is empty and `get_stories` fails. -/
theorem claim_C9_witness :
    parseStories exLines9 false = some [exTriple9] ∧
    (∃ t ∈ [exTriple9], t.1 = []) ∧
    getStories exLines9 false none = none :=
  ⟨by decide, by decide,
   claim_C9 exLines9 [exTriple9] none (by decide) (by decide)⟩

/-! List access and `optMapM` lemmas for the vectorization claims. -/

theorem get?_some_lt : ∀ (l : List α) (i : Nat) (a : α),
    l.get? i = some a → i < l.length := by
  intro l
  induction l with
  | nil => intro i a h; simp at h
  | cons x xs ih =>
    intro i a h
    cases i with
    | zero => simp
    | succ j =>
      have := ih j a h
      simpa using Nat.succ_lt_succ this

theorem get?_some_mem : ∀ (l : List α) (i : Nat) (a : α),
    l.get? i = some a → a ∈ l := by
  intro l
  induction l with
  | nil => intro i a h; simp at h
  | cons x xs ih =>
    intro i a h
    cases i with
    | zero => injection h with h; subst h; simp
    | succ j => exact List.mem_cons_of_mem x (ih j a h)

theorem get?_lt_some : ∀ (l : List α) (i : Nat), i < l.length →
    ∃ a, l.get? i = some a := by
  intro l
  induction l with
  | nil => intro i h; simp at h
  | cons x xs ih =>
    intro i h
    cases i with
    | zero => exact ⟨x, rfl⟩
    | succ j => exact ih j (by simpa using h)

theorem get?_map (f : α → β) : ∀ (l : List α) (n : Nat),
    (l.map f).get? n = (l.get? n).map f := by
  intro l
  induction l with
  | nil => intro n; simp
  | cons x xs ih =>
    intro n
    cases n with
    | zero => rfl
    | succ j => exact ih j

theorem optMapM_length {f : α → Option β} :
    ∀ {xs : List α} {ys : List β}, optMapM f xs = some ys →
      ys.length = xs.length := by
  intro xs
  induction xs with
  | nil => intro ys h; injection h with h; subst h; rfl
  | cons x xs ih =>
    intro ys h
    simp only [optMapM] at h
    cases hf : f x with
    | none => rw [hf] at h; exact absurd h (by simp)
    | some y =>
      rw [hf] at h
      cases hm : optMapM f xs with
      | none => rw [hm] at h; exact absurd h (by simp)
      | some ys2 =>
        rw [hm] at h
        injection h with h
        subst h
        simp [ih hm]

theorem optMapM_get? {f : α → Option β} :
    ∀ {xs : List α} {ys : List β} (j : Nat) {x : α}, optMapM f xs = some ys →
      xs.get? j = some x → ∃ y, ys.get? j = some y ∧ f x = some y := by
  intro xs
  induction xs with
  | nil => intro ys j x h hx; simp at hx
  | cons a as ih =>
    intro ys j x h hx
    simp only [optMapM] at h
    cases hf : f a with
    | none => rw [hf] at h; exact absurd h (by simp)
    | some y =>
      rw [hf] at h
      cases hm : optMapM f as with
      | none => rw [hm] at h; exact absurd h (by simp)
      | some ys2 =>
        rw [hm] at h
        injection h with h
        subst h
        cases j with
        | zero =>
          injection hx with hx
          subst hx
          exact ⟨y, rfl, hf⟩
        | succ j2 => exact ih j2 hm hx

/-! `padSeq` and `oneHot` lemmas. -/

theorem padSeq_length (m : Nat) (xs : List Nat) : (padSeq m xs).length = m := by
  unfold padSeq
  by_cases hle : m ≤ xs.length
  · rw [if_pos hle, List.length_drop]; omega
  · rw [if_neg hle, List.length_append, List.length_replicate]; omega

theorem padSeq_of_le {m : Nat} {xs : List Nat} (h : xs.length ≤ m) :
    padSeq m xs = List.replicate (m - xs.length) 0 ++ xs := by
  unfold padSeq
  by_cases hle : m ≤ xs.length
  · have h0 : xs.length - m = 0 := by omega
    have h1 : m - xs.length = 0 := by omega
    rw [if_pos hle, h0, h1]
    simp
  · rw [if_neg hle]

theorem get?_set_self : ∀ (l : List Nat) (i : Nat) (a : Nat),
    i < l.length → (l.set i a).get? i = some a := by
  intro l
  induction l with
  | nil => intro i a h; simp at h
  | cons x xs ih =>
    intro i a h
    cases i with
    | zero => rfl
    | succ j => exact ih j a (by simpa using h)

theorem get?_set_ne : ∀ (l : List Nat) (i j : Nat) (a : Nat),
    i ≠ j → (l.set i a).get? j = l.get? j := by
  intro l
  induction l with
  | nil => intro i j a _; simp
  | cons x xs ih =>
    intro i j a h
    cases i with
    | zero =>
      cases j with
      | zero => exact absurd rfl h
      | succ j2 => rfl
    | succ i2 =>
      cases j with
      | zero => rfl
      | succ j2 => exact ih i2 j2 a (fun he => h (by rw [he]))

theorem get?_replicate_zero : ∀ (n i : Nat), i < n →
    (List.replicate n (0 : Nat)).get? i = some 0 := by
  intro n
  induction n with
  | zero => intro i h; omega
  | succ n ih =>
    intro i h
    cases i with
    | zero => rfl
    | succ j => exact ih j (by omega)

theorem oneHot_length (n i : Nat) : (oneHot n i).length = n := by
  simp [oneHot]

theorem oneHot_get_self {n i : Nat} (h : i < n) : (oneHot n i).get? i = some 1 := by
  unfold oneHot
  exact get?_set_self _ i 1 (by simpa using h)

theorem oneHot_get_ne {n i j : Nat} (hj : j ≠ i) (hjn : j < n) :
    (oneHot n i).get? j = some 0 := by
  unfold oneHot
  rw [get?_set_ne _ i j 1 (fun he => hj he.symm)]
  exact get?_replicate_zero n j hjn

/-- Claim C5: for a triple whose answer is a key of `word_idx`, the answer
row has length `len(word_idx) + 1` and is `1` exactly at `word_idx[answer]`
and `0` everywhere else. -/
theorem claim_C5 (vocab : List Token) (sm qm : Nat) (data : List FlatTriple)
    (X Xq Y : List (List Nat)) (j : Nat) (s q : List Token) (a : Token) (k : Nat)
    (hvec : vectorizeStories vocab sm qm data = some (X, Xq, Y))
    (hj : data.get? j = some (s, q, a))
    (hk : wordIdx vocab a = some k) :
    ∃ y, Y.get? j = some y ∧ y.length = vocab.length + 1 ∧
      y.get? k = some 1 ∧ ∀ i, i ≠ k → i < vocab.length + 1 → y.get? i = some 0 := by
  rw [vectorizeStories] at hvec
  cases hrows : optMapM (vectorizeTriple vocab) data with
  | none => rw [hrows] at hvec; exact absurd hvec (by simp)
  | some rows =>
    rw [hrows] at hvec
    simp only [Option.some_inj, Prod.mk.injEq] at hvec
    obtain ⟨_, _, hY⟩ := hvec
    obtain ⟨r, hr, hrt⟩ := optMapM_get? j hrows hj
    simp only [vectorizeTriple] at hrt
    cases hx : optMapM (wordIdx vocab) s with
    | none => rw [hx] at hrt; exact absurd hrt (by simp)
    | some x =>
      rw [hx] at hrt
      cases hxq : optMapM (wordIdx vocab) q with
      | none => rw [hxq] at hrt; exact absurd hrt (by simp)
      | some xq =>
        rw [hxq] at hrt
        rw [hk] at hrt
        injection hrt with hrt
        have hklt : k < vocab.length + 1 := by
          obtain ⟨i, hi, he⟩ := wordIdx_some_bounds hk
          have := get?_some_lt _ _ _ hi
          omega
        refine ⟨oneHot (vocab.length + 1) k, ?_, oneHot_length _ _,
          oneHot_get_self hklt, fun i hik hilt => oneHot_get_ne hik hilt⟩
        rw [← hY, get?_map, hr, ← hrt]
        rfl

/-- Witness for C5 on a concrete dataset and vocabulary. -/
theorem claim_C5_witness :
    vectorizeStories ["a", "b", "c"] 3 2 exFlatData =
      some ([[0, 2, 1]], [[0, 3]], [[0, 1, 0, 0]]) ∧
    exFlatData.get? 0 = some (["b", "a"], ["c"], "a") ∧
    wordIdx ["a", "b", "c"] "a" = some 1 ∧
    ∃ y, ([[0, 1, 0, 0]] : List (List Nat)).get? 0 = some y ∧
      y.length = 4 ∧ y.get? 1 = some 1 ∧
      ∀ i, i ≠ 1 → i < 4 → y.get? i = some 0 := by
  refine ⟨by decide, by decide, by decide, ?_⟩
  have h := claim_C5 ["a", "b", "c"] 3 2 exFlatData [[0, 2, 1]] [[0, 3]]
    [[0, 1, 0, 0]] 0 ["b", "a"] ["c"] "a" 1 (by decide) (by decide) (by decide)
  simpa using h

/-- Claim C6: when every story/query token is a key and lengths are within
the bounds, the story and query arrays have shapes `(n, story_maxlen)` and
`(n, query_maxlen)`, each row being the token indices left-padded with
zeros. -/
theorem claim_C6 (vocab : List Token) (sm qm : Nat) (data : List FlatTriple)
    (X Xq Y : List (List Nat))
    (hvec : vectorizeStories vocab sm qm data = some (X, Xq, Y))
    (hsm : ∀ t ∈ data, t.1.length ≤ sm)
    (hqm : ∀ t ∈ data, t.2.1.length ≤ qm) :
    X.length = data.length ∧ Xq.length = data.length ∧
    (∀ row ∈ X, row.length = sm) ∧ (∀ row ∈ Xq, row.length = qm) ∧
    ∀ j s q a, data.get? j = some (s, q, a) →
      ∃ xs xqs, optMapM (wordIdx vocab) s = some xs ∧
        optMapM (wordIdx vocab) q = some xqs ∧
        X.get? j = some (List.replicate (sm - s.length) 0 ++ xs) ∧
        Xq.get? j = some (List.replicate (qm - q.length) 0 ++ xqs) := by
  rw [vectorizeStories] at hvec
  cases hrows : optMapM (vectorizeTriple vocab) data with
  | none => rw [hrows] at hvec; exact absurd hvec (by simp)
  | some rows =>
    rw [hrows] at hvec
    simp only [Option.some_inj, Prod.mk.injEq] at hvec
    obtain ⟨hX, hXq, _⟩ := hvec
    have hrl := optMapM_length hrows
    refine ⟨by rw [← hX, List.length_map, hrl],
            by rw [← hXq, List.length_map, hrl], ?_, ?_, ?_⟩
    · intro row hrow
      rw [← hX] at hrow
      obtain ⟨r, _, hre⟩ := List.mem_map.mp hrow
      rw [← hre]
      exact padSeq_length sm r.1
    · intro row hrow
      rw [← hXq] at hrow
      obtain ⟨r, _, hre⟩ := List.mem_map.mp hrow
      rw [← hre]
      exact padSeq_length qm r.2.1
    · intro j s q a hj
      obtain ⟨r, hr, hrt⟩ := optMapM_get? j hrows hj
      simp only [vectorizeTriple] at hrt
      cases hx : optMapM (wordIdx vocab) s with
      | none => rw [hx] at hrt; exact absurd hrt (by simp)
      | some xs =>
        rw [hx] at hrt
        cases hxq : optMapM (wordIdx vocab) q with
        | none => rw [hxq] at hrt; exact absurd hrt (by simp)
        | some xqs =>
          rw [hxq] at hrt
          cases hyi : wordIdx vocab a with
          | none => rw [hyi] at hrt; exact absurd hrt (by simp)
          | some yi =>
            rw [hyi] at hrt
            injection hrt with hrt
            have hmem := get?_some_mem _ _ _ hj
            have hxl : xs.length = s.length := optMapM_length hx
            have hxql : xqs.length = q.length := optMapM_length hxq
            have hsle : xs.length ≤ sm := by
              rw [hxl]; exact hsm _ hmem
            have hqle : xqs.length ≤ qm := by
              rw [hxql]; exact hqm _ hmem
            refine ⟨xs, xqs, rfl, rfl, ?_, ?_⟩
            · rw [← hX, get?_map, hr, ← hrt]
              simp only [Option.map_some']
              rw [padSeq_of_le hsle, hxl]
            · rw [← hXq, get?_map, hr, ← hrt]
              simp only [Option.map_some']
              rw [padSeq_of_le hqle, hxql]

/-- Witness for C6 on a concrete dataset and vocabulary. -/
theorem claim_C6_witness :
    vectorizeStories ["a", "b", "c"] 3 2 exFlatData =
      some ([[0, 2, 1]], [[0, 3]], [[0, 1, 0, 0]]) ∧
    (∀ t ∈ exFlatData, t.1.length ≤ 3) ∧
    (∀ t ∈ exFlatData, t.2.1.length ≤ 2) ∧
    ([[0, 2, 1]] : List (List Nat)).length = exFlatData.length ∧
    (∀ row ∈ ([[0, 2, 1]] : List (List Nat)), row.length = 3) := by
  refine ⟨by decide, by decide, by decide, ?_, ?_⟩
  · exact (claim_C6 ["a", "b", "c"] 3 2 exFlatData [[0, 2, 1]] [[0, 3]]
      [[0, 1, 0, 0]] (by decide) (by decide) (by decide)).1
  · exact (claim_C6 ["a", "b", "c"] 3 2 exFlatData [[0, 2, 1]] [[0, 3]]
      [[0, 1, 0, 0]] (by decide) (by decide) (by decide)).2.2.1

/-- Claim C7: every model call of the demo loop receives the vectorized test
story at index 10 as its story input, whatever questions are asked. -/
theorem claim_C7 (inputsTest : List (List Nat)) (vocab : List Token)
    (qm : Nat) (questions : List String) (c : ModelCall)
    (hc : c ∈ demoRun inputsTest vocab qm questions) :
    inputsTest.get? 10 = some c.story := by
  induction questions with
  | nil => simp [demoRun] at hc
  | cons qu rest ih =>
    rw [demoRun] at hc
    by_cases hq : qu = "q"
    · rw [if_pos hq] at hc; simp at hc
    · rw [if_neg hq] at hc
      cases hd : demoCall inputsTest vocab qm qu with
      | none => rw [hd] at hc; simp at hc
      | some c2 =>
        rw [hd] at hc
        rcases List.mem_cons.mp hc with rfl | hmem
        · rw [demoCall] at hd
          cases hv : vectorizeQuery vocab qm qu with
          | none => rw [hv] at hd; exact absurd hd (by simp)
          | some qv =>
            rw [hv] at hd
            cases hst : inputsTest.get? 10 with
            | none => rw [hst] at hd; exact absurd hd (by simp)
            | some st =>
              rw [hst] at hd
              injection hd with hd
              rw [← hd]
        · exact ih hmem

/-- Witness for C7: a run with one question against an 11-row test array. -/
theorem claim_C7_witness :
    (⟨[9, 9], [1]⟩ : ModelCall) ∈ demoRun exInputs ["a"] 1 ["a", "q"] ∧
    exInputs.get? 10 = some (⟨[9, 9], [1]⟩ : ModelCall).story :=
  ⟨by decide, claim_C7 exInputs ["a"] 1 ["a", "q"] ⟨[9, 9], [1]⟩ (by decide)⟩

/-! Value-keyed scan lemmas for `get_answer`. -/

theorem val_foldl_of_not_mem {m : Nat} {items : List (Token × Nat)}
    (acc : Token) (h : ∀ p ∈ items, p.2 ≠ m) :
    items.foldl (fun acc p => if p.2 = m then p.1 else acc) acc = acc := by
  induction items generalizing acc with
  | nil => rfl
  | cons x xs ih =>
    have hx : x.2 ≠ m := h x (by simp)
    simp only [List.foldl_cons, if_neg hx]
    exact ih acc (fun p hp => h p (by simp [hp]))

theorem val_foldl_stable {m : Nat} {w : Token} :
    ∀ (items : List (Token × Nat)), (∀ p ∈ items, p.2 = m → p.1 = w) →
      items.foldl (fun acc p => if p.2 = m then p.1 else acc) w = w := by
  intro items
  induction items with
  | nil => intro _; rfl
  | cons x xs ih =>
    intro h
    simp only [List.foldl_cons]
    by_cases hx : x.2 = m
    · rw [if_pos hx, h x (by simp) hx]
      exact ih (fun p hp => h p (by simp [hp]))
    · rw [if_neg hx]
      exact ih (fun p hp => h p (by simp [hp]))

theorem val_foldl_unique {m : Nat} {w : Token} :
    ∀ (items : List (Token × Nat)), (w, m) ∈ items →
      (∀ p ∈ items, p.2 = m → p.1 = w) →
      ∀ acc, items.foldl (fun acc p => if p.2 = m then p.1 else acc) acc = w := by
  intro items
  induction items with
  | nil => intro hmem; simp at hmem
  | cons x xs ih =>
    intro hmem huniq acc
    simp only [List.foldl_cons]
    rcases List.mem_cons.mp hmem with rfl | hmem2
    · rw [if_pos rfl]
      exact val_foldl_stable xs (fun p hp => huniq p (by simp [hp]))
    · by_cases hx : x.2 = m
      · rw [if_pos hx, huniq x (by simp) hx]
        exact val_foldl_stable xs (fun p hp => huniq p (by simp [hp]))
      · rw [if_neg hx]
        exact ih hmem2 (fun p hp => huniq p (by simp [hp])) acc

/-- Claim C10: `get_answer` returns the unique vocabulary token whose
`word_idx` value equals the argmax index of the prediction, with that index's
score; when no token has that index (in particular for the reserved index 0)
it returns the string `"answer not found"`. -/
theorem claim_C10 {α : Type} [LinearOrder α] (vocab : List Token)
    (pred : List α) (k : String) (conf : α) (m : Nat)
    (hn : vocab.Nodup)
    (hg : getAnswer vocab pred = some (k, conf))
    (hm : argmax pred = some m) :
    pred.get? m = some conf ∧
    (((∃ w, wordIdx vocab w = some m) ∧
      (∀ w, wordIdx vocab w = some m ↔ w = k)) ∨
     ((∀ w, wordIdx vocab w ≠ some m) ∧ k = "answer not found")) ∧
    (m = 0 → k = "answer not found") := by
  simp only [getAnswer, hm] at hg
  cases hp : pred.get? m with
  | none => rw [hp] at hg; exact absurd hg (by simp)
  | some conf2 =>
    rw [hp] at hg
    simp only [Option.some_inj, Prod.mk.injEq] at hg
    obtain ⟨hkk, hcc⟩ := hg
    have hkeys : ((wordIdxItems vocab).map Prod.fst).Nodup := by
      rw [wordIdxItems, wordIdxItemsFrom_map_fst]; exact hn
    by_cases hrange : 1 ≤ m ∧ m ≤ vocab.length
    · obtain ⟨h1, h2⟩ := hrange
      obtain ⟨w, hw⟩ := get?_lt_some vocab (m - 1) (by omega)
      have hbind : (w, m) ∈ wordIdxItems vocab := by
        have hmem := mem_wordIdxItemsFrom_of_get? 0 hw
        have e : 0 + (m - 1) + 1 = m := by omega
        rw [wordIdxItems]
        exact e ▸ hmem
      have huniq : ∀ p ∈ wordIdxItems vocab, p.2 = m → p.1 = w := by
        intro p hp2 hpm
        obtain ⟨i, hi, hv⟩ := of_mem_wordIdxItemsFrom hp2
        have hie : i = m - 1 := by omega
        rw [hie] at hi
        have h3 := hw.symm.trans hi
        injection h3 with h3
        exact h3.symm
      have hK := val_foldl_unique (wordIdxItems vocab) hbind huniq "answer not found"
      have hkw : k = w := by rw [← hkk, hK]
      refine ⟨by rw [hcc], Or.inl ⟨⟨w, dictLookup_of_mem hkeys hbind⟩, ?_⟩,
        fun h0 => absurd h1 (by omega)⟩
      intro w2
      constructor
      · intro hw2
        rcases dict_foldl_some none hw2 with ⟨p, hp2, hpw, hpv⟩ | habs
        · rw [hkw, ← hpw]
          exact huniq p hp2 hpv
        · simp at habs
      · intro hw2
        rw [hw2, hkw]
        exact dictLookup_of_mem hkeys hbind
    · have hnone : ∀ p ∈ wordIdxItems vocab, p.2 ≠ m := by
        intro p hp2 hpm
        obtain ⟨i, hi, hv⟩ := of_mem_wordIdxItemsFrom hp2
        have hilt := get?_some_lt _ _ _ hi
        exact hrange ⟨by omega, by omega⟩
      have hK := val_foldl_of_not_mem "answer not found" hnone
      have hkdef : k = "answer not found" := by rw [← hkk, hK]
      refine ⟨by rw [hcc], Or.inr ⟨?_, hkdef⟩, fun _ => hkdef⟩
      intro w hw
      rcases dict_foldl_some none hw with ⟨p, hp2, hpw, hpv⟩ | habs
      · exact hnone p hp2 hpv
      · simp at habs

/-- Witness for C10: argmax index 1 for one prediction ("a"), and the same
lookup logic applied through the theorem. -/
theorem claim_C10_witness :
    (["a", "b", "c"] : List Token).Nodup ∧
    getAnswer ["a", "b", "c"] [(0 : Nat), 9, 4, 4] = some ("a", 9) ∧
    argmax [(0 : Nat), 9, 4, 4] = some 1 ∧
    ([(0 : Nat), 9, 4, 4].get? 1 = some 9 ∧
      (((∃ w, wordIdx ["a", "b", "c"] w = some 1) ∧
        (∀ w, wordIdx ["a", "b", "c"] w = some 1 ↔ w = "a")) ∨
       ((∀ w, wordIdx ["a", "b", "c"] w ≠ some 1) ∧
        "a" = "answer not found")) ∧
      ((1 : Nat) = 0 → "a" = "answer not found")) :=
  ⟨by decide, by decide, by decide,
   claim_C10 ["a", "b", "c"] [(0 : Nat), 9, 4, 4] "a" 9 1
     (by decide) (by decide) (by decide)⟩

end RefBot
